import Mathlib

/-!
Verification of the locator subsystem of `distlib` (`distlib/locators.py`).

Python strings are modelled as `List Char` (`PyStr`), URLs as the six
components produced by `urllib.parse.urlparse`, and regular expressions of
the source by explicit executable functions that follow Python's
backtracking semantics.  Network, codec and version-comparison collaborators
(which the source imports from outside this file's scope) are passed in as
explicit function parameters.
-/

set_option autoImplicit false

/-- Python strings, modelled as lists of characters. -/
abbrev PyStr := List Char

/-- Convert a Lean string literal to the `PyStr` model. -/
def str (s : String) : PyStr := s.toList

/-- Python `s.startswith(p)`. -/
def startswith (s p : PyStr) : Bool :=
  match p, s with
  | [], _ => true
  | _ :: _, [] => false
  | c :: p1, d :: s1 => d = c && startswith s1 p1

/-- Python `s.endswith(p)`. -/
def endswith (s p : PyStr) : Bool :=
  startswith s.reverse p.reverse

/-- Python `s.endswith(tuple_of_suffixes)`. -/
def endswithAny (s : PyStr) (l : List PyStr) : Bool :=
  l.any (fun p => endswith s p)

/-- Python `s.lower()` (ASCII case, which is all the source compares). -/
def toLower (s : PyStr) : PyStr := s.map Char.toLower

/-- `posixpath.basename`: everything after the last `'/'`. -/
def basename (p : PyStr) : PyStr :=
  (p.reverse.takeWhile (fun c => c ≠ '/')).reverse

/-- Python `s[:-len(suf)]`, used to strip a matched extension. -/
def stripSuffix (s suf : PyStr) : PyStr :=
  s.take (s.length - suf.length)

/-- `netloc.split(':', 1)[0]`: the host part of a network location. -/
def hostOf (netloc : PyStr) : PyStr :=
  netloc.takeWhile (fun c => c ≠ ':')

/-- `EXTENSIONS = tuple(".tar.gz .tar.bz2 .tar .zip .tgz .egg".split())`. -/
def EXTENSIONS : List PyStr :=
  [str ".tar.gz", str ".tar.bz2", str ".tar", str ".zip", str ".tgz", str ".egg"]

/-- Character class `[a-z0-9_.-]` under `re.I`: letters of either case,
digits, underscore, dot, dash (group 1 of `PROJECT_NAME_AND_VERSION`). -/
def classA (c : Char) : Bool :=
  c.isAlpha || c.isDigit || c = '_' || c = '.' || c = '-'

/-- Character class `[0-9_.-]` (tail of group 2 of
`PROJECT_NAME_AND_VERSION`). -/
def classB (c : Char) : Bool :=
  c.isDigit || c = '_' || c = '.' || c = '-'

/-- One backtracking attempt of `PROJECT_NAME_AND_VERSION` with group 1 of
length `k`: the rest of the subject must continue with `'-'`, a digit, and
then group 2 greedily takes the longest run of `classB` characters. -/
def nvAttempt (s : PyStr) (k : Nat) : Option (PyStr × PyStr) :=
  let rest := s.drop k
  if 2 ≤ rest.length ∧ rest.getD 0 ' ' = '-' ∧ (rest.getD 1 ' ').isDigit then
    some (s.take k, rest.getD 1 ' ' :: (rest.drop 2).takeWhile classB)
  else none

/-- Backtracking loop: group 1 is greedy, so lengths are tried from the
maximal run of `classA` characters downwards; the first success wins. -/
def nvTry (s : PyStr) : Nat → Option (PyStr × PyStr)
  | 0 => none
  | k + 1 =>
    match nvAttempt s (k + 1) with
    | some r => some r
    | none => nvTry s k

/-- `PROJECT_NAME_AND_VERSION.match(s)`, returning `(group 1, group 2)`:
the regex `([a-z0-9_.-]+)-([0-9][0-9_.-]*)` with `re.I`, anchored at the
start of `s` but not at its end. -/
def nvMatch (s : PyStr) : Option (PyStr × PyStr) :=
  nvTry s (s.takeWhile classA).length

/-- Modelled from the spec: the spec's reading of the name/version split,
"non-greedy on name, version consumes the rest" — the *shortest* name
prefix followed by a dash and a digit-initial version taking the whole
remainder.  Stated for comparison with `nvMatch`, which embeds the source. -/
def nvAttemptSpec (s : PyStr) (k : Nat) : Option (PyStr × PyStr) :=
  let rest := s.drop k
  if 2 ≤ rest.length ∧ rest.getD 0 ' ' = '-' ∧ (rest.getD 1 ' ').isDigit
      ∧ (rest.drop 2).all classB then
    some (s.take k, rest.getD 1 ' ' :: rest.drop 2)
  else none

/-- Modelled from the spec: shortest-name-first search (see `nvAttemptSpec`). -/
def nvTrySpec (s : PyStr) (k : Nat) : Nat → Option (PyStr × PyStr)
  | 0 => none
  | fuel + 1 =>
    match nvAttemptSpec s k with
    | some r => some r
    | none => nvTrySpec s (k + 1) fuel

/-- Modelled from the spec: the non-greedy name/version split the spec
describes. -/
def nvMatchSpec (s : PyStr) : Option (PyStr × PyStr) :=
  nvTrySpec s 1 (s.takeWhile classA).length

/-- `PYTHON_VERSION = re.compile(r'-py(\d\.?\d?)$')`, form `-pyD.D`
(checked on the reversed string). -/
def pvDotDot (r : PyStr) : Option (PyStr × PyStr) :=
  if 6 ≤ r.length ∧ (r.getD 0 ' ').isDigit ∧ r.getD 1 ' ' = '.' ∧ (r.getD 2 ' ').isDigit
      ∧ r.getD 3 ' ' = 'y' ∧ r.getD 4 ' ' = 'p' ∧ r.getD 5 ' ' = '-' then
    some (r.drop 6, [r.getD 2 ' ', '.', r.getD 0 ' '])
  else none

/-- `PYTHON_VERSION`, form `-pyDD` (reversed string). -/
def pvTwoDigits (r : PyStr) : Option (PyStr × PyStr) :=
  if 5 ≤ r.length ∧ (r.getD 0 ' ').isDigit ∧ (r.getD 1 ' ').isDigit
      ∧ r.getD 2 ' ' = 'y' ∧ r.getD 3 ' ' = 'p' ∧ r.getD 4 ' ' = '-' then
    some (r.drop 5, [r.getD 1 ' ', r.getD 0 ' '])
  else none

/-- `PYTHON_VERSION`, form `-pyD.` (reversed string). -/
def pvDigitDot (r : PyStr) : Option (PyStr × PyStr) :=
  if 5 ≤ r.length ∧ r.getD 0 ' ' = '.' ∧ (r.getD 1 ' ').isDigit
      ∧ r.getD 2 ' ' = 'y' ∧ r.getD 3 ' ' = 'p' ∧ r.getD 4 ' ' = '-' then
    some (r.drop 5, [r.getD 1 ' ', '.'])
  else none

/-- `PYTHON_VERSION`, form `-pyD` (reversed string). -/
def pvOneDigit (r : PyStr) : Option (PyStr × PyStr) :=
  if 4 ≤ r.length ∧ (r.getD 0 ' ').isDigit
      ∧ r.getD 1 ' ' = 'y' ∧ r.getD 2 ' ' = 'p' ∧ r.getD 3 ' ' = '-' then
    some (r.drop 4, [r.getD 0 ' '])
  else none

/-- `PYTHON_VERSION.search(s)`: the pattern is anchored at the end, so a
match is a suffix of length 6, 5 or 4; `re.search` returns the leftmost
(that is, longest-suffix) match.  Returns `(s[:m.start()], m.group(1))`. -/
def pyverSplit (s : PyStr) : Option (PyStr × PyStr) :=
  match pvDotDot s.reverse <|> pvTwoDigits s.reverse <|> pvDigitDot s.reverse
      <|> pvOneDigit s.reverse with
  | some (rest, v) => some (rest.reverse, v)
  | none => none

/-- The character class `[a-f0-9]` (no `re.I`, so lowercase only). -/
def hexLower (c : Char) : Bool :=
  c.isDigit || ('a' ≤ c ∧ c ≤ 'f')

/-- `MD5_HASH = re.compile('^md5=([a-f0-9]+)$')` applied with `.match`:
the whole fragment must be `md5=` followed by one or more lowercase hex
digits; returns the captured digest. -/
def md5Match (frag : PyStr) : Option PyStr :=
  if startswith frag (str "md5=") ∧ frag.drop 4 ≠ [] ∧ (frag.drop 4).all hexLower then
    some (frag.drop 4)
  else none

/-- The six components of `urllib.parse.urlparse`. -/
structure PyURL where
  scheme : PyStr
  netloc : PyStr
  path : PyStr
  params : PyStr
  query : PyStr
  frag : PyStr
deriving DecidableEq, Repr

/-- `urllib.parse.urlunparse`, reassembling the six components. -/
def urlunparse (u : PyURL) : PyStr :=
  let url0 := u.path ++ (if u.params.isEmpty then [] else ';' :: u.params)
  let url1 :=
    if !u.netloc.isEmpty || startswith url0 (str "//") then
      '/' :: '/' :: (u.netloc ++ (if !url0.isEmpty && url0.head? ≠ some '/' then '/' :: url0 else url0))
    else url0
  let url2 := if u.scheme.isEmpty then url1 else u.scheme ++ ':' :: url1
  let url3 := if u.query.isEmpty then url2 else url2 ++ '?' :: u.query
  if u.frag.isEmpty then url3 else url3 ++ '#' :: u.frag

/-- The record built by `Locator.convert_url_to_download_info`. -/
structure DownloadInfo where
  name : PyStr
  version : PyStr
  filename : PyStr
  url : PyStr
  pythonVersion : Option PyStr
  md5Digest : Option PyStr
deriving DecidableEq, Repr

/-- Python truthiness of the optional `project_name` argument (`None` or
the empty string are falsy). -/
def pyOptFalsy : Option PyStr → Bool
  | none => true
  | some s => s.isEmpty

/-- `Locator.convert_url_to_download_info(url, project_name)`, on the
already-parsed URL components.  Mirrors the source: the path must end in a
known extension; the first non-`.egg` extension matching the basename is
stripped; an optional `-py…` suffix is captured; the remainder is split by
`PROJECT_NAME_AND_VERSION`; the candidate is kept only when `project_name`
is falsy or equals the parsed name case-insensitively; the output URL is
reassembled with an empty fragment and `md5=`-fragments become digests. -/
def convert_url_to_download_info (u : PyURL) (projectName : Option PyStr) :
    Option DownloadInfo :=
  if endswithAny u.path EXTENSIONS then
    let filename := basename u.path
    match EXTENSIONS.find? (fun ext => ext ≠ str ".egg" && endswith filename ext) with
    | none => none
    | some ext =>
      let path1 := stripSuffix filename ext
      let pv := pyverSplit path1
      let path2 := match pv with | some (p, _) => p | none => path1
      match nvMatch path2 with
      | none => none
      | some (name, version) =>
        if pyOptFalsy projectName || toLower (projectName.getD []) = toLower name then
          some { name := name, version := version, filename := filename,
                 url := urlunparse { u with frag := [] },
                 pythonVersion := pv.map (fun p => p.2),
                 md5Digest := md5Match u.frag }
        else none
  else none

/-- `SimpleScrapingLocator._should_queue(link, referrer)`: the link (already
parsed into components; `urlparse` lowercases the scheme) is a crawl
candidate unless its path ends in a known archive/`.exe`/`.pdf` extension,
its scheme is not `http`/`https`, or its host is `localhost`. -/
def shouldQueue (link : PyURL) : Bool :=
  if endswithAny link.path (EXTENSIONS ++ [str ".exe", str ".pdf"]) then false
  else if ¬ (link.scheme = str "http" ∨ link.scheme = str "https") then false
  else if toLower (hostOf link.netloc) = str "localhost" then false
  else true

/-- The enqueue decision taken for one link in `SimpleScrapingLocator._fetch`:
a link is put on the work queue exactly when it was not yet in the seen-set,
`_process_download` returned nothing, `_should_queue` accepts it, and the
*referrer* URL (`url` in the source) starts with the locator's base URL. -/
def fetchEnqueues (baseUrl projectName : PyStr) (seen : List PyStr)
    (link : PyURL) (referrer : PyStr) : Bool :=
  !seen.contains (urlunparse link)
    && (convert_url_to_download_info link (some projectName)).isNone
    && shouldQueue link
    && startswith referrer baseUrl

/-- Raw response bodies, modelled as byte lists. -/
abbrev Bytes := List Nat

/-- Python exceptions that the fetch path can raise internally. -/
inductive PyExn where
  | keyError
  | nameError
  | codecError
deriving DecidableEq, Repr

/-- A successful transport-level response: the headers and data that
`SimpleScrapingLocator.get_page` reads from `urlopen`'s result. -/
structure HttpResponse where
  contentType : PyStr
  contentEncoding : Option PyStr
  body : Bytes
  finalUrl : PyStr
deriving DecidableEq, Repr

/-- Outcome of one network fetch, as seen by `get_page`'s `try` block. -/
inductive FetchOutcome where
  | httpError (code : Nat)
  | urlError
  | otherError
  | ok (resp : HttpResponse)
deriving DecidableEq, Repr

/-- The `Page` object as `get_page` stores it: the decoded text and the
final (post-redirect) URL it was fetched from. -/
structure Page where
  data : PyStr
  url : PyStr
deriving DecidableEq, Repr

/-- The fetch cache `self._cache`: URL to cached outcome (a `Page` or the
cached `None`). -/
abbrev Cache := List (PyStr × Option Page)

/-- First-match association lookup (Python `key in dict` / `dict[key]`). -/
def alookup {α β : Type} [DecidableEq α] (k : α) : List (α × β) → Option β
  | [] => none
  | (a, b) :: t => if a = k then some b else alookup k t

/-- Dictionary assignment `d[k] = v`: overwrite in place, else append. -/
def cacheSet (c : Cache) (k : PyStr) (v : Option Page) : Cache :=
  if (alookup k c).isSome then c.map (fun e => if e.1 = k then (k, v) else e)
  else c ++ [(k, v)]

/-- The `'gzip'` entry of `SimpleScrapingLocator.decoders`.  The source is
`lambda b: gzip.GzipFile(fileobj=BytesIO(d)).read()`: its body refers to
the undefined name `d` instead of the parameter `b`, so every call raises
`NameError`. -/
def gzipDecoder : Bytes → Except PyExn Bytes := fun _ => Except.error PyExn.nameError

/-- `decoder = self.decoders[encoding]`: `'deflate'` maps to
`zlib.decompress` (an external collaborator, passed in), `'gzip'` to the
broken lambda above, and any other key raises `KeyError`. -/
def decodersLookup (deflate : Bytes → Except PyExn Bytes) (enc : PyStr) :
    Except PyExn (Bytes → Except PyExn Bytes) :=
  if enc = str "deflate" then Except.ok deflate
  else if enc = str "gzip" then Except.ok gzipDecoder
  else Except.error PyExn.keyError

/-- Python `\s` (the whitespace class of the `CHARSET` regex). -/
def pyIsSpace (c : Char) : Bool :=
  c = ' ' || c = '\t' || c = '\n' || c = '\r' || c = '\x0b' || c = '\x0c'

/-- After a `';'`, try `\s*charset\s*=\s*(.*)` (case-insensitive). -/
def charsetAfterSemi (s : PyStr) : Option PyStr :=
  let s1 := s.dropWhile pyIsSpace
  if toLower (s1.take 7) = str "charset" then
    match (s1.drop 7).dropWhile pyIsSpace with
    | '=' :: t => some (t.dropWhile pyIsSpace)
    | _ => none
  else none

/-- `CHARSET.search(content_type)`: the leftmost `;`-introduced
`charset=` parameter, returning the captured value. -/
def charsetSearch : PyStr → Option PyStr
  | [] => none
  | c :: rest =>
    if c = ';' then
      match charsetAfterSemi rest with
      | some g => some g
      | none => charsetSearch rest
    else charsetSearch rest

/-- `HTML_CONTENT_TYPE.match(content_type)`: the content type starts with
`text/html` or `application/xhtml`. -/
def htmlContentType (ct : PyStr) : Bool :=
  startswith ct (str "text/html") || startswith ct (str "application/xhtml")

/-- The scheme extracted by `urlparse` from a raw URL string: the lowercased
text before the first `':'`, when nonempty and made of scheme characters. -/
def urlscheme (u : PyStr) : PyStr :=
  let pre := u.takeWhile (fun c => c ≠ ':')
  if pre.length < u.length ∧ pre ≠ [] ∧ pre.all (fun c => c.isAlpha || c.isDigit || c = '+' || c = '-' || c = '.')
  then toLower pre else []

/-- `ensure_slash`: append a `'/'` unless the string already ends in one. -/
def ensureSlash (s : PyStr) : PyStr :=
  if endswith s (str "/") then s else s ++ ['/']

/-- `urljoin(ensure_slash(url), 'index.html')` for the directory rewrite in
`get_page` (joining a plain relative name onto a slash-terminated base). -/
def rewriteIndexUrl (u : PyStr) : PyStr :=
  ensureSlash u ++ str "index.html"

/-- The body-processing part of `get_page`'s success path: optional
content decoding (`self.decoders[encoding]`, raising on unknown or broken
decoders), charset selection (default `utf-8`), and charset decoding via
the external codec `decode`; a `Page` is built from the decoded text and
the final URL. -/
def processResponse (deflate : Bytes → Except PyExn Bytes)
    (decode : PyStr → Bytes → Except PyExn PyStr) (resp : HttpResponse) :
    Except PyExn Page :=
  let dataE : Except PyExn Bytes :=
    match resp.contentEncoding with
    | some enc =>
      if enc.isEmpty then Except.ok resp.body
      else
        match decodersLookup deflate enc with
        | Except.error e => Except.error e
        | Except.ok dec => dec resp.body
    | none => Except.ok resp.body
  match dataE with
  | Except.error e => Except.error e
  | Except.ok data =>
    let charset := (charsetSearch resp.contentType).getD (str "utf-8")
    match decode charset data with
    | Except.error e => Except.error e
    | Except.ok text => Except.ok { data := text, url := resp.finalUrl }

/-- What one call to `get_page` produces: the returned `Page`-or-`None`,
the updated cache, and whether an error was logged (`logger.exception`). -/
structure GetPageResult where
  result : Option Page
  cache : Cache
  errorLogged : Bool
deriving DecidableEq, Repr

/-- `SimpleScrapingLocator.get_page(url)`.  A `file:` URL naming a
directory is rewritten to `<dir>/index.html`; the cache is consulted first;
on a miss the fetch outcome is handled: non-HTML content types yield
`None`; HTML bodies are decoded into a `Page` cached under the final URL;
HTTP 404 is silent, every other error is logged; the `finally` block caches
the result (even `None`) under the requested URL. -/
def getPage (deflate : Bytes → Except PyExn Bytes)
    (decode : PyStr → Bytes → Except PyExn PyStr)
    (isdir : PyStr → Bool) (cache : Cache) (url : PyStr)
    (outcome : FetchOutcome) : GetPageResult :=
  let url := if urlscheme url = str "file" ∧ isdir url then rewriteIndexUrl url else url
  match alookup url cache with
  | some r => { result := r, cache := cache, errorLogged := false }
  | none =>
    match outcome with
    | FetchOutcome.httpError code =>
      { result := none, cache := cacheSet cache url none, errorLogged := decide (code ≠ 404) }
    | FetchOutcome.urlError =>
      { result := none, cache := cacheSet cache url none, errorLogged := true }
    | FetchOutcome.otherError =>
      { result := none, cache := cacheSet cache url none, errorLogged := true }
    | FetchOutcome.ok resp =>
      if htmlContentType resp.contentType then
        match processResponse deflate decode resp with
        | Except.ok page =>
          { result := some page,
            cache := cacheSet (cacheSet cache resp.finalUrl (some page)) url (some page),
            errorLogged := false }
        | Except.error _ =>
          { result := none, cache := cacheSet cache url none, errorLogged := true }
      else { result := none, cache := cacheSet cache url none, errorLogged := false }

/-- How a worker leaves its loop in `SimpleScrapingLocator._fetch`. -/
inductive WorkerExit where
  | sentinel
  | exn
  | starved
deriving DecidableEq, Repr

/-- Counters of one worker's run: queue dequeues (`get`), acknowledgments
(`task_done`), and how the loop ended. -/
structure WorkerRun where
  gets : Nat
  acks : Nat
  exit : WorkerExit
deriving DecidableEq, Repr

/-- One worker's execution of the `_fetch` loop over the sequence of items
it dequeues (`none` is the shutdown sentinel).  `process u = false` models
the body of the `try` raising for that URL: the `finally` still issues
`task_done`, then the exception ends the loop.  A falsy item (the sentinel,
or an empty string) is acknowledged and then breaks the loop. -/
def runWorker (process : PyStr → Bool) : List (Option PyStr) → WorkerRun
  | [] => { gets := 0, acks := 0, exit := WorkerExit.starved }
  | item :: rest =>
    match item with
    | none => { gets := 1, acks := 1, exit := WorkerExit.sentinel }
    | some u =>
      if u.isEmpty then { gets := 1, acks := 1, exit := WorkerExit.sentinel }
      else if process u then
        let r := runWorker process rest
        { gets := r.gets + 1, acks := r.acks + 1, exit := r.exit }
      else { gets := 1, acks := 1, exit := WorkerExit.exn }

/-- `SimpleScrapingLocator._wait_threads`' first loop: one sentinel is put
on the queue per thread in `self._threads`. -/
def putSentinels {T : Type} (threads : List T) : List (Option PyStr) :=
  threads.map (fun _ => none)

/-- Python `result.update(r)` on dictionaries: keys already in `result`
keep their position but take `r`'s value; new keys are appended in order. -/
def dictUpdate {V : Type} (d r : List (PyStr × V)) : List (PyStr × V) :=
  d.map (fun e => match alookup e.1 r with | some v => (e.1, v) | none => e)
    ++ r.filter (fun e => (alookup e.1 d).isNone)

/-- The loop of `AggregatingLocator.get_project`, over the results each
configured locator returns for the name: an empty result is skipped; in
merge mode a non-empty result is folded in with `dict.update`; otherwise
the first non-empty result is returned at once (`break`). -/
def aggLoop {V : Type} (merge : Bool) :
    List (List (PyStr × V)) → List (PyStr × V) → List (PyStr × V)
  | [], result => result
  | r :: rest, result =>
    if r.isEmpty then aggLoop merge rest result
    else if merge then aggLoop merge rest (dictUpdate result r)
    else r

/-- `AggregatingLocator.get_project(name)`, given the per-locator results. -/
def aggGetProject {V : Type} (merge : Bool) (rs : List (List (PyStr × V))) :
    List (PyStr × V) :=
  aggLoop merge rs []

/-- The `locate(predicate)` function, with its external collaborators as
parameters: `versions` is what `default_locator.get_project` returned (a
dict, modelled as an association list in insertion order), `mtch` is
`vp.match` (`none` models the call raising), `key` is
`legacy_version_key`.  Versions whose match raises are skipped; with more
than one candidate the list is sorted ascending by `key` (Python `sorted`
is a stable ascending sort); the last element's record is returned. -/
def locateModel {K D : Type} [LinearOrder K] (mtch : PyStr → Option Bool)
    (key : PyStr → K) (versions : List (PyStr × D)) : Option D :=
  if versions.isEmpty then none
  else
    let slist := (versions.map Prod.fst).filter (fun k => mtch k = some true)
    let slist := if 1 < slist.length
      then List.insertionSort (fun a b => key a ≤ key b) slist else slist
    match slist.getLast? with
    | none => none
    | some v => alookup v versions

/-! ### Helper lemmas about the string primitives -/

theorem startswith_append_self (p t : PyStr) : startswith (p ++ t) p = true := by
  induction p with
  | nil => simp [startswith]
  | cons c p ih => simp [startswith, ih]

theorem startswith_iff (s p : PyStr) : startswith s p = true ↔ ∃ t, s = p ++ t := by
  induction p generalizing s with
  | nil => simp [startswith]
  | cons c p ih =>
    cases s with
    | nil => simp [startswith]
    | cons d s =>
      simp only [startswith, Bool.and_eq_true, decide_eq_true_eq, ih]
      constructor
      · rintro ⟨rfl, t, rfl⟩; exact ⟨t, rfl⟩
      · rintro ⟨t, h⟩
        cases h
        exact ⟨rfl, t, rfl⟩

theorem endswith_append_self (t p : PyStr) : endswith (t ++ p) p = true := by
  simpa [endswith, List.reverse_append] using startswith_append_self p.reverse t.reverse

theorem endswith_iff (s p : PyStr) : endswith s p = true ↔ ∃ t, s = t ++ p := by
  rw [endswith, startswith_iff]
  constructor
  · rintro ⟨t, h⟩
    refine ⟨t.reverse, ?_⟩
    have := congrArg List.reverse h
    simpa using this
  · rintro ⟨t, rfl⟩
    exact ⟨t.reverse, by simp⟩

theorem startswith_of_le (s a b : PyStr) (ha : startswith s a = true)
    (hb : startswith s b = true) (hl : a.length ≤ b.length) :
    startswith b a = true := by
  rw [startswith_iff] at ha hb ⊢
  obtain ⟨ta, rfl⟩ := ha
  obtain ⟨tb, hb⟩ := hb
  refine ⟨b.drop a.length, ?_⟩
  have h1 : b.take a.length = a := by
    have := congrArg (List.take a.length) hb
    rw [List.take_append_of_le_length hl, List.take_left] at this
    exact this.symm
  conv_lhs => rw [← List.take_append_drop a.length b, h1]

theorem endswith_of_le (s a b : PyStr) (ha : endswith s a = true)
    (hb : endswith s b = true) (hl : a.length ≤ b.length) :
    endswith b a = true := by
  rw [endswith] at ha hb ⊢
  exact startswith_of_le s.reverse a.reverse b.reverse ha hb (by simpa using hl)

theorem takeWhile_append_all (q : Char → Bool) (a b : PyStr)
    (h : ∀ c ∈ a, q c = true) : (a ++ b).takeWhile q = a ++ b.takeWhile q := by
  induction a with
  | nil => simp
  | cons c a ih =>
    have hc : q c = true := h c (by simp)
    simp only [List.cons_append, List.takeWhile_cons, hc]
    simp [ih (fun x hx => h x (by simp [hx]))]

theorem endswith_basename (p s : PyStr) (hp : endswith p s = true)
    (hs : ∀ c ∈ s, c ≠ '/') : endswith (basename p) s = true := by
  rw [endswith_iff] at hp
  obtain ⟨t, rfl⟩ := hp
  rw [basename, List.reverse_append,
    takeWhile_append_all _ s.reverse t.reverse
      (fun c hc => by simpa using hs c (by simpa using hc))]
  rw [List.reverse_append, List.reverse_reverse]
  exact endswith_append_self _ s

theorem startswith_head (s p : PyStr) (h : startswith s p = true) (hp : p ≠ []) :
    s.head? = p.head? := by
  cases p with
  | nil => exact absurd rfl hp
  | cons c p =>
    cases s with
    | nil => simp [startswith] at h
    | cons d s =>
      simp only [startswith, Bool.and_eq_true, decide_eq_true_eq] at h
      simp [h.1]

/-! ### Helper lemmas about association lists -/

theorem alookup_cons {α β : Type} [DecidableEq α] (k a : α) (b : β) (t : List (α × β)) :
    alookup k ((a, b) :: t) = if a = k then some b else alookup k t := rfl

theorem alookup_append {α β : Type} [DecidableEq α] (k : α) (a b : List (α × β)) :
    alookup k (a ++ b) = (alookup k a).orElse (fun _ => alookup k b) := by
  induction a with
  | nil => simp [alookup, Option.orElse]
  | cons e a ih =>
    obtain ⟨x, y⟩ := e
    by_cases h : x = k
    · simp [alookup_cons, h, Option.orElse]
    · simpa [List.cons_append, alookup_cons, h, Option.orElse] using ih

theorem alookup_overwrite (c : Cache) (k : PyStr) (v : Option Page)
    (h : (alookup k c).isSome = true) :
    alookup k (c.map (fun e => if e.1 = k then (k, v) else e)) = some v := by
  induction c with
  | nil => simp [alookup] at h
  | cons e c ih =>
    obtain ⟨x, y⟩ := e
    by_cases hx : x = k
    · simp [List.map_cons, hx, alookup_cons]
    · simp only [alookup_cons, hx, if_neg, if_false] at h
      simp only [List.map_cons, if_neg hx]
      rw [alookup_cons]
      simp only [hx, if_false]
      exact ih h

theorem alookup_cacheSet_self (c : Cache) (k : PyStr) (v : Option Page) :
    alookup k (cacheSet c k v) = some v := by
  rw [cacheSet]
  split
  next h => exact alookup_overwrite c k v h
  next h =>
    rw [alookup_append]
    cases hx : alookup k c with
    | some y => rw [hx] at h; simp at h
    | none => simp [hx, alookup_cons, Option.orElse]

theorem alookup_map_update {V : Type} (k : PyStr) (d r : List (PyStr × V)) :
    alookup k (d.map (fun e => match alookup e.1 r with | some v => (e.1, v) | none => e))
      = match alookup k d with
        | some y => some ((alookup k r).getD y)
        | none => none := by
  induction d with
  | nil => simp [alookup]
  | cons e d ih =>
    obtain ⟨x, y⟩ := e
    by_cases hx : x = k
    · subst hx
      cases hr : alookup x r with
      | some v => simp [alookup_cons, hr]
      | none => simp [alookup_cons, hr]
    · cases hr : alookup x r with
      | some v => simpa [alookup_cons, hr, hx] using ih
      | none => simpa [alookup_cons, hr, hx] using ih

theorem alookup_filter_keep {V : Type} (k : PyStr) (r : List (PyStr × V))
    (q : PyStr × V → Bool) (hq : ∀ e : PyStr × V, e.1 = k → q e = true) :
    alookup k (r.filter q) = alookup k r := by
  induction r with
  | nil => simp
  | cons e r ih =>
    obtain ⟨x, y⟩ := e
    by_cases hx : x = k
    · subst hx
      have hq2 : q (x, y) = true := hq (x, y) rfl
      simp [List.filter_cons, hq2, alookup_cons, ih]
    · cases hqe : q (x, y) with
      | true => simp [List.filter_cons, hqe, alookup_cons, hx, ih]
      | false => simp [List.filter_cons, hqe, alookup_cons, hx, ih]

theorem alookup_dictUpdate {V : Type} (k : PyStr) (d r : List (PyStr × V)) :
    alookup k (dictUpdate d r)
      = (alookup k r).orElse (fun _ => alookup k d) := by
  rw [dictUpdate, alookup_append, alookup_map_update]
  cases hd : alookup k d with
  | some y =>
    cases hr : alookup k r with
    | some v => simp [Option.orElse]
    | none => simp [Option.orElse, hd]
  | none =>
    have hfil : alookup k (r.filter (fun e => (alookup e.1 d).isNone))
        = alookup k r := by
      refine alookup_filter_keep k r _ (fun e he => ?_)
      rw [he, hd]; rfl
    cases hr : alookup k r with
    | some v => simp [Option.orElse, hfil, hr]
    | none => simp [Option.orElse, hfil, hr]

theorem getLast?_cons_orElse {α : Type} (x : α) (l : List α) :
    (x :: l).getLast? = (l.getLast?).orElse (fun _ => some x) := by
  induction l generalizing x with
  | nil => simp [Option.orElse]
  | cons y l ih =>
    rw [List.getLast?_cons_cons, ih y]
    cases hl : l.getLast? with
    | some z => simp [Option.orElse]
    | none => simp [Option.orElse]

theorem sorted_getLast?_max {α : Type} (r : α → α → Prop) (hrefl : ∀ a, r a a)
    (l : List α) (hs : l.Sorted r) (v : α) (hv : l.getLast? = some v) :
    ∀ u ∈ l, r u v := by
  induction l with
  | nil => simp at hv
  | cons x l ih =>
    intro u hu
    cases l with
    | nil =>
      simp only [List.getLast?_singleton, Option.some.injEq] at hv
      simp only [List.mem_singleton] at hu
      rw [hu, ← hv]
      exact hrefl x
    | cons y t =>
      rw [List.getLast?_cons_cons] at hv
      rcases List.mem_cons.1 hu with rfl | hu2
      · have hvmem : v ∈ y :: t := by
          rw [getLast?_cons_orElse] at hv
          cases hl : t.getLast? with
          | some z =>
            rw [hl] at hv
            simp only [Option.orElse, Option.some.injEq] at hv
            exact List.mem_cons_of_mem y (hv ▸ List.mem_of_getLast?_eq_some hl)
          | none =>
            rw [hl] at hv
            simp only [Option.orElse, Option.some.injEq] at hv
            rw [← hv]
            exact List.mem_cons_self y t
        exact (List.sorted_cons.1 hs).1 v hvmem
      · exact ih (List.sorted_cons.1 hs).2 hv u hu2

/-! ### Helper lemmas about the name/version regex backtracking -/

theorem nvTry_eq_none_iff (s : PyStr) (j : Nat) :
    nvTry s j = none ↔ ∀ k, 1 ≤ k → k ≤ j → nvAttempt s k = none := by
  induction j with
  | zero => simp [nvTry]; omega
  | succ j ih =>
    rw [nvTry]
    cases ha : nvAttempt s (j + 1) with
    | some r =>
      constructor
      · intro h; exact absurd h (by simp)
      · intro h
        have h2 := h (j + 1) (by omega) (by omega)
        rw [h2] at ha
        exact absurd ha (by simp)
    | none =>
      simp only [ih]
      constructor
      · intro h k h1 h2
        rcases Nat.lt_or_ge k (j + 1) with hk | hk
        · exact h k h1 (by omega)
        · have : k = j + 1 := by omega
          rw [this]; exact ha
      · intro h k h1 h2
        exact h k h1 (by omega)

theorem nvTry_eq_some (s : PyStr) (j : Nat) (v : PyStr × PyStr)
    (h : nvTry s j = some v) :
    ∃ k, 1 ≤ k ∧ k ≤ j ∧ nvAttempt s k = some v
      ∧ ∀ k2, k < k2 → k2 ≤ j → nvAttempt s k2 = none := by
  induction j with
  | zero => simp [nvTry] at h
  | succ j ih =>
    rw [nvTry] at h
    cases ha : nvAttempt s (j + 1) with
    | some r =>
      rw [ha] at h
      cases h
      exact ⟨j + 1, by omega, by omega, ha, fun k2 h1 h2 => by omega⟩
    | none =>
      rw [ha] at h
      obtain ⟨k, h1, h2, h3, h4⟩ := ih h
      refine ⟨k, h1, by omega, h3, fun k2 hk1 hk2 => ?_⟩
      rcases Nat.lt_or_ge k2 (j + 1) with hk | hk
      · exact h4 k2 hk1 (by omega)
      · have : k2 = j + 1 := by omega
        rw [this]; exact ha

theorem nvTry_first (s : PyStr) (j k : Nat) (v : PyStr × PyStr)
    (h1 : 1 ≤ k) (h2 : k ≤ j) (h3 : nvAttempt s k = some v)
    (h4 : ∀ k2, k < k2 → k2 ≤ j → nvAttempt s k2 = none) :
    nvTry s j = some v := by
  induction j with
  | zero => omega
  | succ j ih =>
    rw [nvTry]
    rcases Nat.lt_or_ge k (j + 1) with hk | hk
    · rw [h4 (j + 1) (by omega) (by omega)]
      exact ih (by omega) (fun k2 ha hb => h4 k2 ha (by omega))
    · have : k = j + 1 := by omega
      subst this
      rw [h3]

theorem getD_mem_of_lt {l : List Char} {i : Nat} (h : i < l.length) (d : Char) :
    l.getD i d ∈ l := by
  rw [List.getD_eq_getElem l d h]
  exact List.getElem_mem h

theorem getD_append_boundary (a b : List Char) (c d : Char) (i : Nat)
    (h : i = a.length) : (a ++ c :: b).getD i d = c := by
  subst h
  rw [List.getD_append_right a (c :: b) d a.length (le_refl _)]
  simp [List.getD]

theorem digit_or_dot_facts (c : Char) (h : c.isDigit = true ∨ c = '.') :
    c ≠ 'y' ∧ c ≠ 'p' ∧ c ≠ '-' := by
  rcases h with h | h
  · refine ⟨?_, ?_, ?_⟩ <;> rintro rfl <;> exact absurd h (by decide)
  · subst h; refine ⟨by decide, by decide, by decide⟩

theorem pvDotDot_none (rv rn : List Char) (hne : rv ≠ [])
    (hall : ∀ c ∈ rv, c.isDigit = true ∨ c = '.') :
    pvDotDot (rv ++ '-' :: rn) = none := by
  rw [pvDotDot, if_neg]
  rintro ⟨h6, h0, h1, h2, h3, h4, h5⟩
  have hm : 1 ≤ rv.length := by
    cases rv with
    | nil => exact absurd rfl hne
    | cons a t => simp
  rcases Nat.lt_or_ge 3 rv.length with hgt | hle
  · rw [List.getD_append _ _ _ _ (by omega)] at h3
    have hmem := hall _ (getD_mem_of_lt (i := 3) (by omega) ' ')
    rw [h3] at hmem
    exact absurd hmem (by decide)
  · rcases show rv.length = 1 ∨ rv.length = 2 ∨ rv.length = 3 by omega with h | h | h
    · rw [getD_append_boundary rv rn '-' ' ' 1 h.symm] at h1
      exact absurd h1 (by decide)
    · rw [getD_append_boundary rv rn '-' ' ' 2 h.symm] at h2
      exact absurd h2 (by decide)
    · rw [getD_append_boundary rv rn '-' ' ' 3 h.symm] at h3
      exact absurd h3 (by decide)

theorem pvTwoDigits_none (rv rn : List Char) (hne : rv ≠ [])
    (hall : ∀ c ∈ rv, c.isDigit = true ∨ c = '.') :
    pvTwoDigits (rv ++ '-' :: rn) = none := by
  rw [pvTwoDigits, if_neg]
  rintro ⟨h5, h0, h1, h2, h3, h4⟩
  have hm : 1 ≤ rv.length := by
    cases rv with
    | nil => exact absurd rfl hne
    | cons a t => simp
  rcases Nat.lt_or_ge 2 rv.length with hgt | hle
  · rw [List.getD_append _ _ _ _ (by omega)] at h2
    have hmem := hall _ (getD_mem_of_lt (i := 2) (by omega) ' ')
    rw [h2] at hmem
    exact absurd hmem (by decide)
  · rcases show rv.length = 1 ∨ rv.length = 2 by omega with h | h
    · rw [getD_append_boundary rv rn '-' ' ' 1 h.symm] at h1
      exact absurd h1 (by decide)
    · rw [getD_append_boundary rv rn '-' ' ' 2 h.symm] at h2
      exact absurd h2 (by decide)

theorem pvDigitDot_none (rv rn : List Char) (hne : rv ≠ [])
    (hall : ∀ c ∈ rv, c.isDigit = true ∨ c = '.') :
    pvDigitDot (rv ++ '-' :: rn) = none := by
  rw [pvDigitDot, if_neg]
  rintro ⟨h5, h0, h1, h2, h3, h4⟩
  have hm : 1 ≤ rv.length := by
    cases rv with
    | nil => exact absurd rfl hne
    | cons a t => simp
  rcases Nat.lt_or_ge 2 rv.length with hgt | hle
  · rw [List.getD_append _ _ _ _ (by omega)] at h2
    have hmem := hall _ (getD_mem_of_lt (i := 2) (by omega) ' ')
    rw [h2] at hmem
    exact absurd hmem (by decide)
  · rcases show rv.length = 1 ∨ rv.length = 2 by omega with h | h
    · rw [getD_append_boundary rv rn '-' ' ' 1 h.symm] at h1
      exact absurd h1 (by decide)
    · rw [getD_append_boundary rv rn '-' ' ' 2 h.symm] at h2
      exact absurd h2 (by decide)

theorem pvOneDigit_none (rv rn : List Char) (hne : rv ≠ [])
    (hall : ∀ c ∈ rv, c.isDigit = true ∨ c = '.') :
    pvOneDigit (rv ++ '-' :: rn) = none := by
  rw [pvOneDigit, if_neg]
  rintro ⟨h4, h0, h1, h2, h3⟩
  have hm : 1 ≤ rv.length := by
    cases rv with
    | nil => exact absurd rfl hne
    | cons a t => simp
  rcases Nat.lt_or_ge 1 rv.length with hgt | hle
  · rw [List.getD_append _ _ _ _ (by omega)] at h1
    have hmem := hall _ (getD_mem_of_lt (i := 1) (by omega) ' ')
    rw [h1] at hmem
    exact absurd hmem (by decide)
  · have h : rv.length = 1 := by omega
    rw [getD_append_boundary rv rn '-' ' ' 1 h.symm] at h1
    exact absurd h1 (by decide)

theorem pyverSplit_name_version (name version : PyStr) (hv : version ≠ [])
    (hall : ∀ c ∈ version, c.isDigit = true ∨ c = '.') :
    pyverSplit (name ++ '-' :: version) = none := by
  have hrev : (name ++ '-' :: version).reverse
      = version.reverse ++ '-' :: name.reverse := by
    simp [List.reverse_append]
  have hne : version.reverse ≠ [] := by simpa using hv
  have hallr : ∀ c ∈ version.reverse, c.isDigit = true ∨ c = '.' := by
    intro c hc
    exact hall c (by simpa using hc)
  rw [pyverSplit, hrev, pvDotDot_none _ _ hne hallr, pvTwoDigits_none _ _ hne hallr,
    pvDigitDot_none _ _ hne hallr, pvOneDigit_none _ _ hne hallr]
  rfl

theorem classA_of_digit_or_dot (c : Char) (h : c.isDigit = true ∨ c = '.') :
    classA c = true := by
  rcases h with h | h
  · simp [classA, h]
  · subst h; decide

theorem classB_of_digit_or_dot (c : Char) (h : c.isDigit = true ∨ c = '.') :
    classB c = true := by
  rcases h with h | h
  · simp [classB, h]
  · subst h; decide

theorem classA_ne_slash (c : Char) (h : classA c = true) : c ≠ '/' := by
  rintro rfl
  exact absurd h (by decide)

theorem digit_or_dot_ne_slash (c : Char) (h : c.isDigit = true ∨ c = '.') : c ≠ '/' := by
  rintro rfl
  rcases h with h | h
  · exact absurd h (by decide)
  · exact absurd h (by decide)

theorem not_endswith_both (s a b : PyStr) (h1 : endswith b a = false)
    (h2 : endswith a b = false) (ha : endswith s a = true) (hb : endswith s b = true) :
    False := by
  rcases le_total a.length b.length with h | h
  · rw [endswith_of_le s a b ha hb h] at h1; cases h1
  · rw [endswith_of_le s b a hb ha h] at h2; cases h2

/-- On a subject `name ++ '-' ++ version`, with `name` a nonempty run of
name characters and `version` a nonempty digit-initial run of digits and
dots, the greedy backtracking match recovers exactly this split. -/
theorem nvMatch_name_version (name version : PyStr) (hname : name ≠ [])
    (hnA : ∀ c ∈ name, classA c = true)
    (d : Char) (t : PyStr) (hver : version = d :: t) (hd : d.isDigit = true)
    (hall : ∀ c ∈ version, c.isDigit = true ∨ c = '.') :
    nvMatch (name ++ '-' :: version) = some (name, version) := by
  have hlen : (name ++ '-' :: version).length = name.length + 1 + version.length := by
    simp [List.length_append]; omega
  have htw : (name ++ '-' :: version).takeWhile classA = name ++ '-' :: version := by
    rw [List.takeWhile_eq_self_iff]
    intro c hc
    rcases List.mem_append.1 hc with hc | hc
    · exact hnA c hc
    · rcases List.mem_cons.1 hc with rfl | hc
      · decide
      · exact classA_of_digit_or_dot c (hall c hc)
  have hattempt : nvAttempt (name ++ '-' :: version) name.length = some (name, version) := by
    rw [nvAttempt]
    have hdrop : (name ++ '-' :: version).drop name.length = '-' :: version :=
      List.drop_left name ('-' :: version)
    rw [hdrop]
    rw [if_pos]
    · have htake : (name ++ '-' :: version).take name.length = name :=
        List.take_left name ('-' :: version)
      rw [htake, hver]
      have htB : t.takeWhile classB = t := by
        rw [List.takeWhile_eq_self_iff]
        intro c hc
        exact classB_of_digit_or_dot c (hall c (by rw [hver]; exact List.mem_cons_of_mem d hc))
      simp [List.getD, htB]
    · refine ⟨by simp [hver], by simp [List.getD], ?_⟩
      simp [hver, List.getD, hd]
  have hmax : ∀ k2, name.length < k2 → k2 ≤ (name ++ '-' :: version).length →
      nvAttempt (name ++ '-' :: version) k2 = none := by
    intro k2 hk1 hk2
    rw [nvAttempt, if_neg]
    rintro ⟨hl, hdash, hdg⟩
    have hdrop : (name ++ '-' :: version).drop k2 = version.drop (k2 - name.length - 1) := by
      have h1 := @List.drop_append Char name ('-' :: version) (k2 - name.length)
      rw [show name.length + (k2 - name.length) = k2 by omega] at h1
      have h2 : List.drop (k2 - name.length) ('-' :: version)
          = List.drop (k2 - name.length - 1) version := by
        conv_lhs => rw [show k2 - name.length = (k2 - name.length - 1) + 1 by omega]
        rw [List.drop_succ_cons]
      rw [h1, h2]
    rw [hdrop] at hl hdash
    have hmem : '-' ∈ version.drop (k2 - name.length - 1) := by
      rw [← hdash]
      exact getD_mem_of_lt (by omega) ' '
    have hmem2 : '-' ∈ version := List.drop_subset _ version hmem
    rcases hall '-' hmem2 with h | h
    · exact absurd h (by decide)
    · exact absurd h (by decide)
  rw [nvMatch, htw, hlen]
  refine nvTry_first _ _ name.length _ ?_ (by omega) hattempt ?_
  · cases name with
    | nil => exact absurd rfl hname
    | cons a l => simp
  · intro k3 h1 h2
    exact hmax k3 h1 (by omega)

theorem basename_append (dir fname : PyStr) (h : ∀ c ∈ fname, c ≠ '/') :
    basename (dir ++ '/' :: fname) = fname := by
  rw [basename]
  have hrev : (dir ++ '/' :: fname).reverse = fname.reverse ++ '/' :: dir.reverse := by
    simp
  rw [hrev, takeWhile_append_all _ fname.reverse ('/' :: dir.reverse)
    (fun c hc => by simpa using h c (by simpa using hc))]
  simp

theorem find_ext_of (fname ext : PyStr)
    (hmem : ext ∈ [str ".tar.gz", str ".tar.bz2", str ".tar", str ".zip", str ".tgz"])
    (hend : endswith fname ext = true) :
    EXTENSIONS.find? (fun e => e ≠ str ".egg" && endswith fname e) = some ext := by
  have hno : ∀ e : PyStr, endswith ext e = false → endswith e ext = false →
      endswith fname e = false := by
    intro e h1 h2
    cases hc : endswith fname e with
    | false => rfl
    | true => exact absurd (not_endswith_both fname e ext h1 h2 hc hend) (by simp)
  fin_cases hmem
  · rw [EXTENSIONS, List.find?_cons_of_pos _ (by simp [hend]; decide)]
  · rw [EXTENSIONS, List.find?_cons_of_neg _ (by simp [hno (str ".tar.gz") (by decide) (by decide)]),
      List.find?_cons_of_pos _ (by simp [hend]; decide)]
  · rw [EXTENSIONS, List.find?_cons_of_neg _ (by simp [hno (str ".tar.gz") (by decide) (by decide)]),
      List.find?_cons_of_neg _ (by simp [hno (str ".tar.bz2") (by decide) (by decide)]),
      List.find?_cons_of_pos _ (by simp [hend]; decide)]
  · rw [EXTENSIONS, List.find?_cons_of_neg _ (by simp [hno (str ".tar.gz") (by decide) (by decide)]),
      List.find?_cons_of_neg _ (by simp [hno (str ".tar.bz2") (by decide) (by decide)]),
      List.find?_cons_of_neg _ (by simp [hno (str ".tar") (by decide) (by decide)]),
      List.find?_cons_of_pos _ (by simp [hend]; decide)]
  · rw [EXTENSIONS, List.find?_cons_of_neg _ (by simp [hno (str ".tar.gz") (by decide) (by decide)]),
      List.find?_cons_of_neg _ (by simp [hno (str ".tar.bz2") (by decide) (by decide)]),
      List.find?_cons_of_neg _ (by simp [hno (str ".tar") (by decide) (by decide)]),
      List.find?_cons_of_neg _ (by simp [hno (str ".zip") (by decide) (by decide)]),
      List.find?_cons_of_pos _ (by simp [hend]; decide)]

/-- The positive path of the filename parser: a URL whose path is
`<dir>/<name>-<version><ext>` (with a recognised non-egg extension, a
well-formed name and a digit-initial dotted-numeric version) parses to
exactly this name and version, with the URL reassembled fragment-free. -/
theorem convert_exact (u : PyURL) (dir name version ext pname : PyStr)
    (hext : ext ∈ [str ".tar.gz", str ".tar.bz2", str ".tar", str ".zip", str ".tgz"])
    (hpath : u.path = dir ++ '/' :: (name ++ '-' :: (version ++ ext)))
    (hname : name ≠ []) (hnA : ∀ c ∈ name, classA c = true)
    (d : Char) (t : PyStr) (hver : version = d :: t) (hd : d.isDigit = true)
    (hall : ∀ c ∈ version, c.isDigit = true ∨ c = '.')
    (hpn : toLower pname = toLower name) :
    convert_url_to_download_info u (some pname)
      = some { name := name, version := version,
               filename := name ++ '-' :: (version ++ ext),
               url := urlunparse { u with frag := [] },
               pythonVersion := none,
               md5Digest := md5Match u.frag } := by
  have hext6 : ext ∈ EXTENSIONS := by fin_cases hext <;> decide
  have hslash_ext : ∀ c ∈ ext, c ≠ '/' := by fin_cases hext <;> decide
  have hfn_slash : ∀ c ∈ name ++ '-' :: (version ++ ext), c ≠ '/' := by
    intro c hc
    rcases List.mem_append.1 hc with hc | hc
    · exact classA_ne_slash c (hnA c hc)
    · rcases List.mem_cons.1 hc with rfl | hc
      · decide
      · rcases List.mem_append.1 hc with hc | hc
        · exact digit_or_dot_ne_slash c (hall c hc)
        · exact hslash_ext c hc
  have hfe : name ++ '-' :: (version ++ ext) = (name ++ '-' :: version) ++ ext := by
    simp
  have hend_ext : endswith (name ++ '-' :: (version ++ ext)) ext = true := by
    rw [hfe]; exact endswith_append_self _ _
  have hb : basename u.path = name ++ '-' :: (version ++ ext) := by
    rw [hpath]; exact basename_append dir _ hfn_slash
  have hpe : endswith u.path ext = true := by
    rw [hpath, show dir ++ '/' :: (name ++ '-' :: (version ++ ext))
        = (dir ++ '/' :: (name ++ '-' :: version)) ++ ext by simp]
    exact endswith_append_self _ _
  have hany : endswithAny u.path EXTENSIONS = true := by
    rw [endswithAny, List.any_eq_true]
    exact ⟨ext, hext6, hpe⟩
  have hfind : EXTENSIONS.find?
      (fun e => e ≠ str ".egg" && endswith (name ++ '-' :: (version ++ ext)) e)
      = some ext := find_ext_of _ ext hext hend_ext
  have hstrip : stripSuffix (name ++ '-' :: (version ++ ext)) ext
      = name ++ '-' :: version := by
    rw [stripSuffix, hfe]
    exact List.take_left' (by simp [List.length_append]; omega)
  have hpv : pyverSplit (name ++ '-' :: version) = none :=
    pyverSplit_name_version name version (by simp [hver]) hall
  have hnv : nvMatch (name ++ '-' :: version) = some (name, version) :=
    nvMatch_name_version name version hname hnA d t hver hd hall
  have hcond : (pname.isEmpty || decide (toLower pname = toLower name)) = true := by
    simp [hpn]
  simp only [convert_url_to_download_info, hany, if_true, hb, hfind, hstrip, hpv, hnv,
    pyOptFalsy, Option.getD, Option.map, hcond]

theorem convert_some_fields (u : PyURL) (pn : Option PyStr) (info : DownloadInfo)
    (h : convert_url_to_download_info u pn = some info) :
    info.md5Digest = md5Match u.frag ∧ info.url = urlunparse { u with frag := [] } := by
  simp only [convert_url_to_download_info] at h
  split at h
  · split at h
    · simp at h
    · split at h
      · simp at h
      · split at h
        · simp only [Option.some.injEq] at h
          subst h
          exact ⟨rfl, rfl⟩
        · simp at h
  · simp at h

theorem convert_egg_none (u : PyURL) (pn : Option PyStr)
    (hegg : endswith u.path (str ".egg") = true) :
    convert_url_to_download_info u pn = none := by
  have hb : endswith (basename u.path) (str ".egg") = true :=
    endswith_basename u.path _ hegg (by decide)
  have hno : ∀ e : PyStr, endswith (str ".egg") e = false →
      endswith e (str ".egg") = false → endswith (basename u.path) e = false := by
    intro e h1 h2
    cases hc : endswith (basename u.path) e with
    | false => rfl
    | true => exact absurd (not_endswith_both _ e (str ".egg") h1 h2 hc hb) (by simp)
  have hfind : EXTENSIONS.find?
      (fun e => e ≠ str ".egg" && endswith (basename u.path) e) = none := by
    rw [EXTENSIONS,
      List.find?_cons_of_neg _ (by simp [hno (str ".tar.gz") (by decide) (by decide)]),
      List.find?_cons_of_neg _ (by simp [hno (str ".tar.bz2") (by decide) (by decide)]),
      List.find?_cons_of_neg _ (by simp [hno (str ".tar") (by decide) (by decide)]),
      List.find?_cons_of_neg _ (by simp [hno (str ".zip") (by decide) (by decide)]),
      List.find?_cons_of_neg _ (by simp [hno (str ".tgz") (by decide) (by decide)]),
      List.find?_cons_of_neg _ (by simp)]
    rfl
  simp only [convert_url_to_download_info, hfind]
  split <;> rfl

theorem md5Match_eq_some_iff (frag dg : PyStr) :
    md5Match frag = some dg ↔
      frag = str "md5=" ++ dg ∧ dg ≠ [] ∧ ∀ c ∈ dg, hexLower c = true := by
  constructor
  · intro h
    rw [md5Match] at h
    split at h
    next hcond =>
      obtain ⟨hsw, hne, hall⟩ := hcond
      rw [startswith_iff] at hsw
      obtain ⟨t, hfrag⟩ := hsw
      have hdrop : frag.drop 4 = t := by
        rw [hfrag]; exact List.drop_left' (by decide)
      simp only [Option.some.injEq] at h
      subst h
      refine ⟨by rw [hdrop, hfrag], hne, fun c hc => List.all_eq_true.1 hall c hc⟩
    next => exact absurd h (by simp)
  · rintro ⟨hfrag, hne, hall⟩
    subst hfrag
    have hdrop : (str "md5=" ++ dg).drop 4 = dg := List.drop_left' (by decide)
    rw [md5Match, if_pos]
    · rw [hdrop]
    · refine ⟨startswith_append_self _ _, ?_, ?_⟩
      · rwa [hdrop]
      · rw [hdrop]; exact List.all_eq_true.2 hall

theorem alookup_isSome_of_mem {α β : Type} [DecidableEq α] (k : α) (l : List (α × β))
    (h : k ∈ l.map Prod.fst) : (alookup k l).isSome = true := by
  induction l with
  | nil => simp at h
  | cons e l ih =>
    obtain ⟨x, y⟩ := e
    by_cases hx : x = k
    · simp [alookup_cons, hx]
    · rw [alookup_cons, if_neg hx]
      refine ih ?_
      simp only [List.map_cons, List.mem_cons] at h
      rcases h with h | h
      · exact absurd h.symm hx
      · exact h

/-! ### Helper lemmas about the worker loop and the aggregator -/

theorem runWorker_gets_eq_acks (process : PyStr → Bool) (items : List (Option PyStr)) :
    (runWorker process items).gets = (runWorker process items).acks := by
  induction items with
  | nil => rfl
  | cons item rest ih =>
    cases item with
    | none => rfl
    | some u =>
      by_cases hu : u.isEmpty
      · simp [runWorker, hu]
      · cases hp : process u with
        | true => simp [runWorker, hu, hp, ih]
        | false => simp [runWorker, hu, hp]

theorem runWorker_clean (process : PyStr → Bool) (urls : List PyStr)
    (hne : ∀ u ∈ urls, u ≠ []) (hok : ∀ u ∈ urls, process u = true) :
    runWorker process (urls.map some ++ [none])
      = { gets := urls.length + 1, acks := urls.length + 1,
          exit := WorkerExit.sentinel } := by
  induction urls with
  | nil => rfl
  | cons u urls ih =>
    have hu : u.isEmpty = false := by
      cases u with
      | nil => exact absurd rfl (hne [] (by simp))
      | cons c t => rfl
    have hp : process u = true := hok u (by simp)
    simp only [List.map_cons, List.cons_append, runWorker, hu, Bool.false_eq_true,
      if_false, hp, if_true, List.append_eq]
    rw [ih (fun x hx => hne x (by simp [hx])) (fun x hx => hok x (by simp [hx]))]
    simp [List.length_cons]

theorem aggLoop_first_hit {V : Type} (pre post : List (List (PyStr × V)))
    (r : List (PyStr × V)) (h1 : ∀ x ∈ pre, x = []) (h2 : r ≠ [])
    (acc : List (PyStr × V)) :
    aggLoop false (pre ++ r :: post) acc = r := by
  induction pre generalizing acc with
  | nil =>
    have : r.isEmpty = false := by
      cases r with
      | nil => exact absurd rfl h2
      | cons e t => rfl
    simp [aggLoop, this]
  | cons x pre ih =>
    have hx : x = [] := h1 x (by simp)
    subst hx
    simp only [List.cons_append, aggLoop, List.isEmpty_nil, if_true]
    exact ih (fun y hy => h1 y (by simp [hy])) acc

theorem aggLoop_merge_lookup {V : Type} (k : PyStr) (rs : List (List (PyStr × V)))
    (acc : List (PyStr × V)) :
    alookup k (aggLoop true rs acc)
      = ((rs.filterMap (fun d => alookup k d)).getLast?).orElse
          (fun _ => alookup k acc) := by
  induction rs generalizing acc with
  | nil => simp [aggLoop, Option.orElse]
  | cons x rs ih =>
    by_cases hx : x.isEmpty
    · have hx0 : x = [] := List.isEmpty_iff.1 hx
      subst hx0
      simp only [aggLoop, List.isEmpty_nil, if_true, List.filterMap_cons]
      have : alookup k ([] : List (PyStr × V)) = none := rfl
      rw [this]
      exact ih acc
    · simp only [aggLoop, hx, Bool.false_eq_true, if_false, if_true, List.filterMap_cons]
      rw [ih (dictUpdate acc x), alookup_dictUpdate]
      cases hkx : alookup k x with
      | none =>
        simp only []
        cases hrest : (rs.filterMap (fun d => alookup k d)).getLast? with
        | some z => simp [Option.orElse]
        | none => simp [Option.orElse]
      | some v =>
        simp only []
        rw [getLast?_cons_orElse]
        cases hrest : (rs.filterMap (fun d => alookup k d)).getLast? with
        | some z => simp [Option.orElse]
        | none => simp [Option.orElse]

/-! ### Helper lemmas about the fetch layer -/

theorem getPage_no_rewrite (isdir : PyStr → Bool) (url : PyStr)
    (hscheme : urlscheme url ≠ str "file") :
    (if urlscheme url = str "file" ∧ isdir url then rewriteIndexUrl url else url) = url := by
  rw [if_neg]
  rintro ⟨h1, _⟩
  exact hscheme h1

theorem getPage_hit (deflate : Bytes → Except PyExn Bytes)
    (decode : PyStr → Bytes → Except PyExn PyStr) (isdir : PyStr → Bool)
    (cache : Cache) (url : PyStr) (outcome : FetchOutcome) (r : Option Page)
    (hscheme : urlscheme url ≠ str "file")
    (hhit : alookup url cache = some r) :
    getPage deflate decode isdir cache url outcome
      = { result := r, cache := cache, errorLogged := false } := by
  simp only [getPage, getPage_no_rewrite isdir url hscheme, hhit]

theorem getPage_result_cached (deflate : Bytes → Except PyExn Bytes)
    (decode : PyStr → Bytes → Except PyExn PyStr) (isdir : PyStr → Bool)
    (cache : Cache) (url : PyStr) (outcome : FetchOutcome)
    (hscheme : urlscheme url ≠ str "file")
    (hmiss : alookup url cache = none) :
    alookup url (getPage deflate decode isdir cache url outcome).cache
      = some (getPage deflate decode isdir cache url outcome).result := by
  simp only [getPage, getPage_no_rewrite isdir url hscheme, hmiss]
  cases outcome with
  | httpError code => exact alookup_cacheSet_self _ _ _
  | urlError => exact alookup_cacheSet_self _ _ _
  | otherError => exact alookup_cacheSet_self _ _ _
  | ok resp =>
    by_cases hh : htmlContentType resp.contentType
    · simp only [hh, if_true]
      cases hp : processResponse deflate decode resp with
      | ok page => exact alookup_cacheSet_self _ _ _
      | error e => exact alookup_cacheSet_self _ _ _
    · simp only [hh, Bool.false_eq_true, if_false]
      exact alookup_cacheSet_self _ _ _

theorem pySorted_getLast_max {K : Type} [LinearOrder K] (key : PyStr → K)
    (m : List PyStr) (hne : m ≠ []) :
    ∃ v, (if 1 < m.length then List.insertionSort (fun a b => key a ≤ key b) m
          else m).getLast? = some v
      ∧ v ∈ m ∧ ∀ u ∈ m, key u ≤ key v := by
  by_cases hlen : 1 < m.length
  · rw [if_pos hlen]
    haveI : IsTotal PyStr (fun a b => key a ≤ key b) :=
      ⟨fun a b => le_total (key a) (key b)⟩
    haveI : IsTrans PyStr (fun a b => key a ≤ key b) :=
      ⟨fun a b c h1 h2 => le_trans h1 h2⟩
    have hsorted := List.sorted_insertionSort (fun a b => key a ≤ key b) m
    have hperm := List.perm_insertionSort (fun a b => key a ≤ key b) m
    have hns : List.insertionSort (fun a b => key a ≤ key b) m ≠ [] := by
      intro h0
      exact hne (List.length_eq_zero.1 (by rw [← hperm.length_eq, h0]; rfl))
    cases hgl : (List.insertionSort (fun a b => key a ≤ key b) m).getLast? with
    | none => exact absurd (List.getLast?_eq_none_iff.1 hgl) hns
    | some v =>
      refine ⟨v, rfl, hperm.mem_iff.1 (List.mem_of_getLast?_eq_some hgl), ?_⟩
      intro u hu
      exact sorted_getLast?_max (fun a b => key a ≤ key b)
        (fun a => le_refl (key a)) _ hsorted v hgl u (hperm.mem_iff.2 hu)
  · rw [if_neg hlen]
    have h0 : 0 < m.length := List.length_pos.2 hne
    have hm1 : m.length = 1 := by omega
    obtain ⟨x, hx⟩ := List.length_eq_one.1 hm1
    subst hx
    refine ⟨x, by simp, by simp, ?_⟩
    intro u hu
    simp only [List.mem_singleton] at hu
    subst hu
    exact le_refl _

/-- Claim C7 — `locate(predicate)`: versions whose constraint match raises
are skipped as non-matching; with no versions or no matching version the
result is `none`; otherwise the result is the record looked up at a
matching version whose legacy ordering key is maximal. -/
theorem claim_C7 {K D : Type} [LinearOrder K] (mtch : PyStr → Option Bool)
    (key : PyStr → K) (versions : List (PyStr × D)) :
    (versions.isEmpty = true → locateModel mtch key versions = none)
    ∧ (((versions.map Prod.fst).filter (fun k => mtch k = some true)).isEmpty = true →
        locateModel mtch key versions = none)
    ∧ (((versions.map Prod.fst).filter (fun k => mtch k = some true)) ≠ [] →
        ∃ v, v ∈ (versions.map Prod.fst).filter (fun k => mtch k = some true)
          ∧ (∀ u ∈ (versions.map Prod.fst).filter (fun k => mtch k = some true),
              key u ≤ key v)
          ∧ locateModel mtch key versions = alookup v versions
          ∧ (alookup v versions).isSome = true) := by
  refine ⟨?_, ?_, ?_⟩
  · intro h
    simp [locateModel, h]
  · intro h
    rw [locateModel]
    split
    · rfl
    · rw [List.isEmpty_iff.1 h]
      simp
  · intro hne
    rw [locateModel]
    split
    next hemp =>
      exact absurd (by simp [List.isEmpty_iff.1 hemp]) hne
    next hemp =>
      obtain ⟨v, hv, hvm, hmax⟩ :=
        pySorted_getLast_max key
          ((versions.map Prod.fst).filter (fun k => mtch k = some true)) hne
      refine ⟨v, hvm, hmax, ?_, alookup_isSome_of_mem _ _ (List.mem_of_mem_filter hvm)⟩
      simp only [hv]

/-- Witness for claim C7: the spec's scenario — versions `1.0`, `2.0`,
`bogus`, where matching raises on `bogus`; the `2.0` record is returned. -/
theorem claim_C7_witness :
    (∃ v, v ∈ ([(str "1.0", 10), (str "2.0", 20), (str "bogus", 30)].map
            (Prod.fst (β := Nat))).filter
          (fun k => (if k = str "bogus" then none else some true) = some true)
        ∧ (∀ u ∈ ([(str "1.0", 10), (str "2.0", 20), (str "bogus", 30)].map
              (Prod.fst (β := Nat))).filter
            (fun k => (if k = str "bogus" then none else some true) = some true),
            (fun s : PyStr => s.length) u ≤ (fun s : PyStr => s.length) v)
        ∧ locateModel (fun k => if k = str "bogus" then none else some true)
            (fun s : PyStr => s.length)
            [(str "1.0", 10), (str "2.0", 20), (str "bogus", 30)]
            = alookup v [(str "1.0", 10), (str "2.0", 20), (str "bogus", 30)]
        ∧ (alookup v [(str "1.0", 10), (str "2.0", 20), (str "bogus", 30)]).isSome = true)
    ∧ locateModel (fun k => if k = str "bogus" then none else some true)
        (fun s : PyStr => s.length)
        [(str "1.0", 10), (str "2.0", 20), (str "bogus", 30)] = some 20 := by
  constructor
  · exact (claim_C7 (fun k => if k = str "bogus" then none else some true)
      (fun s : PyStr => s.length)
      [(str "1.0", 10), (str "2.0", 20), (str "bogus", 30)]).2.2 (by decide)
  · decide

theorem endswithAny_eq_false_iff (s : PyStr) (l : List PyStr) :
    endswithAny s l = false ↔ ∀ e ∈ l, endswith s e = false := by
  rw [endswithAny, List.any_eq_false]
  constructor
  · intro h e he
    exact Bool.eq_false_iff.2 (h e he)
  · intro h e he
    rw [h e he]
    simp

theorem shouldQueue_eq_true_iff (link : PyURL) :
    shouldQueue link = true ↔
      ((link.scheme = str "http" ∨ link.scheme = str "https")
        ∧ toLower (hostOf link.netloc) ≠ str "localhost"
        ∧ endswithAny link.path (EXTENSIONS ++ [str ".exe", str ".pdf"]) = false) := by
  rw [shouldQueue]
  constructor
  · intro h
    split at h
    next => exact absurd h (by simp)
    next hc1 =>
      split at h
      next => exact absurd h (by simp)
      next hc2 =>
        split at h
        next => exact absurd h (by simp)
        next hc3 =>
          exact ⟨not_not.1 hc2, hc3, Bool.eq_false_iff.2 hc1⟩
  · rintro ⟨ha, hb, hc⟩
    rw [if_neg (by simp [hc]), if_neg (not_not_intro ha), if_neg hb]

/-- Claim C1 (amended): in the worker loop, an unseen link that does not
parse as a download is enqueued if and only if it is in scope — scheme
`http`/`https`, host not `localhost`, path not ending in a known
archive/`.exe`/`.pdf` extension — and the *referrer page's* URL (not the
link's) starts with the configured base URL prefix. -/
theorem claim_C1 (baseUrl projectName : PyStr) (seen : List PyStr) (link : PyURL)
    (referrer : PyStr)
    (hseen : seen.contains (urlunparse link) = false)
    (hdl : convert_url_to_download_info link (some projectName) = none) :
    fetchEnqueues baseUrl projectName seen link referrer = true
      ↔ ((link.scheme = str "http" ∨ link.scheme = str "https")
          ∧ toLower (hostOf link.netloc) ≠ str "localhost"
          ∧ (∀ e ∈ EXTENSIONS ++ [str ".exe", str ".pdf"], endswith link.path e = false)
          ∧ startswith referrer baseUrl = true) := by
  rw [fetchEnqueues, hseen, hdl]
  simp only [Option.isNone_none, Bool.not_false, Bool.true_and, Bool.and_eq_true]
  rw [shouldQueue_eq_true_iff]
  constructor
  · rintro ⟨⟨ha, hb, hc⟩, hd⟩
    exact ⟨ha, hb, (endswithAny_eq_false_iff _ _).1 hc, hd⟩
  · rintro ⟨ha, hb, hc, hd⟩
    exact ⟨⟨ha, hb, (endswithAny_eq_false_iff _ _).2 hc⟩, hd⟩

/-- Counterexample to claim C1 as stated: a link on an in-scope referrer
page is enqueued by the code even though the link's own URL does not start
with the base URL prefix (the source tests the referrer, not the link). -/
theorem claim_C1_counterexample :
    fetchEnqueues (str "http://pypi.python.org/simple/") (str "foo") []
        { scheme := str "http", netloc := str "example.com", path := str "/bar/",
          params := [], query := [], frag := [] }
        (str "http://pypi.python.org/simple/foo/") = true
    ∧ startswith
        (urlunparse
          { scheme := str "http", netloc := str "example.com", path := str "/bar/",
            params := [], query := [], frag := [] })
        (str "http://pypi.python.org/simple/") = false := by
  exact ⟨by decide, by decide⟩

/-- Witness for claim C1: an in-scope link on an in-scope referrer page is
enqueued. -/
theorem claim_C1_witness :
    ([] : List PyStr).contains
        (urlunparse
          { scheme := str "http", netloc := str "pypi.python.org",
            path := str "/simple/foo/sub/", params := [], query := [], frag := [] })
        = false
    ∧ convert_url_to_download_info
        { scheme := str "http", netloc := str "pypi.python.org",
          path := str "/simple/foo/sub/", params := [], query := [], frag := [] }
        (some (str "foo")) = none
    ∧ fetchEnqueues (str "http://pypi.python.org/simple/") (str "foo") []
        { scheme := str "http", netloc := str "pypi.python.org",
          path := str "/simple/foo/sub/", params := [], query := [], frag := [] }
        (str "http://pypi.python.org/simple/foo/") = true := by
  refine ⟨by decide, by decide, ?_⟩
  exact (claim_C1 (str "http://pypi.python.org/simple/") (str "foo") []
      { scheme := str "http", netloc := str "pypi.python.org",
        path := str "/simple/foo/sub/", params := [], query := [], frag := [] }
      (str "http://pypi.python.org/simple/foo/") (by decide) (by decide)).2
    ⟨Or.inl (by decide), by decide, by decide, by decide⟩

/-- Claim C8 — `AggregatingLocator.get_project`: in first-hit mode the
first locator's non-empty result is returned verbatim (later locators are
never consulted: the result does not depend on them); in merge mode the
result at each version key is the last non-`none` lookup over all
locators' results, i.e. later locators overwrite earlier ones. -/
theorem claim_C8 {V : Type} (pre post rs : List (List (PyStr × V)))
    (r : List (PyStr × V)) (k : PyStr)
    (h1 : ∀ x ∈ pre, x = []) (h2 : r ≠ []) :
    aggGetProject false (pre ++ r :: post) = r
    ∧ alookup k (aggGetProject true rs)
        = (rs.filterMap (fun d => alookup k d)).getLast? := by
  constructor
  · exact aggLoop_first_hit pre post r h1 h2 []
  · rw [aggGetProject, aggLoop_merge_lookup]
    cases h : (rs.filterMap (fun d => alookup k d)).getLast? with
    | some z => simp [Option.orElse]
    | none => simp [Option.orElse, alookup]

/-- Witness for claim C8: first-hit skips an empty locator and stops at the
first non-empty one; merge overwrites version `2.0` with the later value. -/
theorem claim_C8_witness :
    aggGetProject false [[], [(str "1.0", 5)], [(str "2.0", 7)]] = [(str "1.0", 5)]
    ∧ alookup (str "2.0")
        (aggGetProject true [[(str "2.0", 5)], [(str "2.0", 7)]]) = some 7 := by
  have h := claim_C8 (V := Nat) [[]] [[(str "2.0", 7)]]
    [[(str "2.0", 5)], [(str "2.0", 7)]] [(str "1.0", 5)] (str "2.0")
    (by intro x hx; simpa using hx) (by decide)
  exact ⟨h.1, h.2.trans (by decide)⟩

/-- Claim C6 — the worker loop of `_fetch`: every dequeue is matched by
exactly one `task_done` acknowledgment whatever the per-item outcome
(including the exception path); `_wait_threads` pushes exactly one sentinel
per worker; and a worker whose items all process cleanly terminates by
acknowledging its sentinel, having acknowledged every dequeue. -/
theorem claim_C6 {T : Type} (process : PyStr → Bool) (items : List (Option PyStr))
    (urls : List PyStr) (threads : List T)
    (hne : ∀ u ∈ urls, u ≠ []) (hok : ∀ u ∈ urls, process u = true) :
    (runWorker process items).gets = (runWorker process items).acks
    ∧ (putSentinels threads).length = threads.length
    ∧ (∀ x ∈ putSentinels threads, x = none)
    ∧ runWorker process (urls.map some ++ [none])
        = { gets := urls.length + 1, acks := urls.length + 1,
            exit := WorkerExit.sentinel } := by
  refine ⟨runWorker_gets_eq_acks process items, by simp [putSentinels], ?_,
    runWorker_clean process urls hne hok⟩
  intro x hx
  simp only [putSentinels, List.mem_map] at hx
  obtain ⟨_, _, hx⟩ := hx
  exact hx.symm

/-- Witness for claim C6: a worker that processes one URL and then the
sentinel performs two dequeues and two acknowledgments and exits on the
sentinel; an exception-raising run still balances dequeues and
acknowledgments. -/
theorem claim_C6_witness :
    (runWorker (fun _ => false) [some (str "http://a"), some (str "http://b")]).gets
      = (runWorker (fun _ => false) [some (str "http://a"), some (str "http://b")]).acks
    ∧ runWorker (fun _ => true) ([str "http://a"].map some ++ [none])
        = { gets := 2, acks := 2, exit := WorkerExit.sentinel } := by
  have h := claim_C6 (T := Unit) (fun _ => false)
    [some (str "http://a"), some (str "http://b")] [] [] (by simp) (by simp)
  have h2 := claim_C6 (T := Unit) (fun _ => true) [] [str "http://a"] []
    (by decide) (by intro u hu; rfl)
  exact ⟨h.1, h2.2.2.2⟩

/-- Claim C5 — `get_page` failure policy: on a cache miss the outcome is
always cached as the result under the requested URL; HTTP 404 produces
`none` with no error log; any other HTTP error or transport error produces
`none` and is logged; a non-HTML content type produces `none` (cached, not
logged); and a repeated fetch of the same URL is served from the cache
(same result, cache unchanged, no network outcome consulted). -/
theorem claim_C5 (deflate : Bytes → Except PyExn Bytes)
    (decode : PyStr → Bytes → Except PyExn PyStr) (isdir : PyStr → Bool)
    (cache : Cache) (url : PyStr) (outcome : FetchOutcome) (r : GetPageResult)
    (hscheme : urlscheme url ≠ str "file")
    (hmiss : alookup url cache = none)
    (hr : r = getPage deflate decode isdir cache url outcome) :
    alookup url r.cache = some r.result
    ∧ (outcome = FetchOutcome.httpError 404 →
        r.result = none ∧ r.errorLogged = false)
    ∧ (∀ c, c ≠ 404 → outcome = FetchOutcome.httpError c →
        r.result = none ∧ r.errorLogged = true)
    ∧ ((outcome = FetchOutcome.urlError ∨ outcome = FetchOutcome.otherError) →
        r.result = none ∧ r.errorLogged = true)
    ∧ (∀ resp, outcome = FetchOutcome.ok resp →
        htmlContentType resp.contentType = false →
        r.result = none ∧ r.errorLogged = false)
    ∧ (∀ outcome2, getPage deflate decode isdir r.cache url outcome2
        = { result := r.result, cache := r.cache, errorLogged := false }) := by
  subst hr
  have hcached := getPage_result_cached deflate decode isdir cache url outcome hscheme hmiss
  refine ⟨hcached, ?_, ?_, ?_, ?_,
    fun outcome2 => getPage_hit deflate decode isdir _ url outcome2 _ hscheme hcached⟩
  · rintro rfl
    simp [getPage, getPage_no_rewrite isdir url hscheme, hmiss]
  · rintro c hc rfl
    simp [getPage, getPage_no_rewrite isdir url hscheme, hmiss, hc]
  · rintro (rfl | rfl) <;>
      simp [getPage, getPage_no_rewrite isdir url hscheme, hmiss]
  · rintro resp rfl hh
    simp [getPage, getPage_no_rewrite isdir url hscheme, hmiss, hh]

/-- Witness for claim C5: a 404 on `http://h/x` yields `none`, no error
log, a cached `none` entry, and the repeated fetch is served from cache. -/
theorem claim_C5_witness :
    (getPage (fun b => Except.ok b) (fun _ _ => Except.ok []) (fun _ => false)
        [] (str "http://h/x") (FetchOutcome.httpError 404)).result = none
    ∧ (getPage (fun b => Except.ok b) (fun _ _ => Except.ok []) (fun _ => false)
        [] (str "http://h/x") (FetchOutcome.httpError 404)).errorLogged = false
    ∧ (∀ outcome2, getPage (fun b => Except.ok b) (fun _ _ => Except.ok [])
        (fun _ => false)
        (getPage (fun b => Except.ok b) (fun _ _ => Except.ok []) (fun _ => false)
          [] (str "http://h/x") (FetchOutcome.httpError 404)).cache
        (str "http://h/x") outcome2
        = { result := (getPage (fun b => Except.ok b) (fun _ _ => Except.ok [])
              (fun _ => false) [] (str "http://h/x")
              (FetchOutcome.httpError 404)).result,
            cache := (getPage (fun b => Except.ok b) (fun _ _ => Except.ok [])
              (fun _ => false) [] (str "http://h/x")
              (FetchOutcome.httpError 404)).cache,
            errorLogged := false }) := by
  have h := claim_C5 (fun b => Except.ok b) (fun _ _ => Except.ok [])
    (fun _ => false) [] (str "http://h/x") (FetchOutcome.httpError 404) _
    (by decide) (by decide) rfl
  exact ⟨(h.2.1 rfl).1, (h.2.1 rfl).2, h.2.2.2.2.2⟩

/-- Claim C2 (code bug): the `gzip` entry of `SimpleScrapingLocator.decoders`
is `lambda b: gzip.GzipFile(fileobj=BytesIO(d)).read()` — it refers to the
undefined name `d`, so decoding any gzip-encoded HTML response raises
`NameError`, is caught, logged and cached as "no page", instead of
producing a parsed `Page` as the spec states.  The `deflate` decoder does
run on the body before charset decoding, and an unrecognized
Content-Encoding also degrades to a logged "no page". -/
theorem claim_C2 :
    gzipDecoder [31, 139, 8] = Except.error PyExn.nameError
    ∧ (getPage (fun b => Except.ok b)
        (fun _ b => Except.ok (b.map (fun n => Char.ofNat n))) (fun _ => false)
        [] (str "http://h/p")
        (FetchOutcome.ok
          { contentType := str "text/html", contentEncoding := some (str "gzip"),
            body := [31, 139, 8], finalUrl := str "http://h/p" }))
      = { result := none,
          cache := [(str "http://h/p", none)], errorLogged := true }
    ∧ (getPage (fun b => Except.ok (b.map (fun n => n + 1)))
        (fun _ b => Except.ok (b.map (fun n => Char.ofNat n))) (fun _ => false)
        [] (str "http://h/p")
        (FetchOutcome.ok
          { contentType := str "text/html", contentEncoding := some (str "deflate"),
            body := [64, 65], finalUrl := str "http://h/p" })).result
      = some { data := [Char.ofNat 65, Char.ofNat 66], url := str "http://h/p" }
    ∧ (getPage (fun b => Except.ok b)
        (fun _ b => Except.ok (b.map (fun n => Char.ofNat n))) (fun _ => false)
        [] (str "http://h/p")
        (FetchOutcome.ok
          { contentType := str "text/html", contentEncoding := some (str "br"),
            body := [64], finalUrl := str "http://h/p" }))
      = { result := none,
          cache := [(str "http://h/p", none)], errorLogged := true } := by
  exact ⟨rfl, by decide, by decide, by decide⟩

/-- Claim C9 — `.egg` URLs are rejected unconditionally by the filename
parser (the loop `continue`s past `.egg`, and no other recognised extension
can match a path ending in `.egg`), while each of the other recognised
extensions is a positive candidate. -/
theorem claim_C9 (u : PyURL) (pn : Option PyStr)
    (hegg : endswith u.path (str ".egg") = true) :
    convert_url_to_download_info u pn = none
    ∧ (∀ e ∈ [str ".tar.gz", str ".tar.bz2", str ".tar", str ".zip", str ".tgz"],
        (convert_url_to_download_info
          { scheme := str "http", netloc := str "h", path := str "/p/foo-1.0" ++ e,
            params := [], query := [], frag := [] }
          (some (str "foo"))).isSome = true) := by
  exact ⟨convert_egg_none u pn hegg, by decide⟩

/-- Witness for claim C9: a well-formed `.egg` URL that would otherwise
split as `foo`-`1.0` still parses to nothing. -/
theorem claim_C9_witness :
    endswith (str "/p/foo-1.0.egg") (str ".egg") = true
    ∧ convert_url_to_download_info
        { scheme := str "http", netloc := str "h", path := str "/p/foo-1.0.egg",
          params := [], query := [], frag := [] } none = none := by
  refine ⟨by decide, ?_⟩
  exact (claim_C9
    { scheme := str "http", netloc := str "h", path := str "/p/foo-1.0.egg",
      params := [], query := [], frag := [] } none (by decide)).1

/-- Claim C10 — the checksum side-channel: a successfully parsed URL
carries digest `dg` exactly when its fragment is `md5=` followed by that
nonempty string of lowercase hex digits; in particular an uppercase
fragment such as `#md5=DEADBEEF` parses normally but carries no checksum. -/
theorem claim_C10 (u : PyURL) (pn : Option PyStr) (info : DownloadInfo)
    (h : convert_url_to_download_info u pn = some info) :
    (∀ dg, info.md5Digest = some dg ↔
        (u.frag = str "md5=" ++ dg ∧ dg ≠ [] ∧ ∀ c ∈ dg, hexLower c = true))
    ∧ ((convert_url_to_download_info
          { scheme := str "http", netloc := str "h", path := str "/p/foo-1.0.tar.gz",
            params := [], query := [], frag := str "md5=DEADBEEF" }
          (some (str "foo"))).map (fun i => i.md5Digest) = some none) := by
  refine ⟨?_, by decide⟩
  intro dg
  rw [(convert_some_fields u pn info h).1]
  exact md5Match_eq_some_iff u.frag dg

/-- Witness for claim C10: fragment `md5=ab12` yields digest `ab12`. -/
theorem claim_C10_witness :
    str "md5=ab12" = str "md5=" ++ str "ab12"
    ∧ str "ab12" ≠ ([] : PyStr)
    ∧ ∀ c ∈ str "ab12", hexLower c = true := by
  have h : convert_url_to_download_info
      { scheme := str "http", netloc := str "h", path := str "/p/foo-1.0.tar.gz",
        params := [], query := [], frag := str "md5=ab12" } (some (str "foo"))
      = some { name := str "foo", version := str "1.0",
               filename := str "foo-1.0.tar.gz",
               url := str "http://h/p/foo-1.0.tar.gz", pythonVersion := none,
               md5Digest := some (str "ab12") } := by decide
  exact ((claim_C10 _ _ _ h).1 (str "ab12")).1 (by decide)

theorem list_two_head {l : List Char} (h : 2 ≤ l.length) :
    l = l.getD 0 ' ' :: l.getD 1 ' ' :: l.drop 2 := by
  cases l with
  | nil => simp at h
  | cons a t =>
    cases t with
    | nil => simp at h
    | cons b t2 => simp [List.getD]

theorem mem_take_of_le_takeWhile (p : Char → Bool) (s : PyStr) (k : Nat)
    (hk : k ≤ (s.takeWhile p).length) : ∀ c ∈ s.take k, p c = true := by
  intro c hc
  have h1 : s.take k = (s.takeWhile p).take k := by
    conv_lhs => rw [← List.takeWhile_append_dropWhile (p := p) (l := s)]
    rw [List.take_append_of_le_length hk]
  rw [h1] at hc
  exact List.mem_takeWhile_imp (List.take_subset _ _ hc)

theorem head_dropWhile_not (p : Char → Bool) (l : List Char) :
    ∀ c, (l.dropWhile p).head? = some c → p c = false := by
  induction l with
  | nil => intro c hc; simp at hc
  | cons a t ih =>
    intro c hc
    by_cases ha : p a
    · rw [List.dropWhile_cons_of_pos ha] at hc
      exact ih c hc
    · rw [List.dropWhile_cons_of_neg ha] at hc
      simp only [List.head?_cons, Option.some.injEq] at hc
      subst hc
      exact Bool.eq_false_iff.2 ha

theorem nvAttempt_none_of_no_digit (s : PyStr) (k : Nat) (d : Char) (t : PyStr)
    (hdrop : s.drop k = '-' :: d :: t) (hatt : nvAttempt s k = none) :
    d.isDigit = false := by
  cases hd : d.isDigit with
  | false => rfl
  | true =>
    rw [nvAttempt] at hatt
    simp only [hdrop] at hatt
    rw [if_pos ⟨by simp, by simp [List.getD], by simp [List.getD, hd]⟩] at hatt
    cases hatt

/-- Claim C4 (amended): the split of the stripped basename is the *greedy*
(longest-name) match of `([a-z0-9_.-]+)-([0-9][0-9_.-]*)`: the name is the
longest `classA` prefix followed by a dash and a digit, the version is the
maximal digit-initial `[0-9_.-]` run after that dash and need not consume
the rest of the string; and when no name/dash/digit split point exists at
all the parser yields nothing. -/
theorem claim_C4 (s n v : PyStr) (h : nvMatch s = some (n, v)) :
    n ≠ []
    ∧ (∀ c ∈ n, classA c = true)
    ∧ s.take n.length = n
    ∧ (∃ d t2 r, v = d :: t2 ∧ d.isDigit = true
        ∧ s.drop n.length = '-' :: (v ++ r)
        ∧ (∀ c ∈ v, classB c = true)
        ∧ (∀ c, r.head? = some c → classB c = false))
    ∧ (∀ k, n.length < k → k ≤ (s.takeWhile classA).length →
        ∀ d t2, s.drop k = '-' :: d :: t2 → d.isDigit = false)
    ∧ (∀ s2 : PyStr, nvMatch s2 = none →
        ∀ k, 1 ≤ k → k ≤ (s2.takeWhile classA).length →
          ∀ d t2, s2.drop k = '-' :: d :: t2 → d.isDigit = false) := by
  rw [nvMatch] at h
  obtain ⟨k, hk1, hk2, hatt, hrest⟩ := nvTry_eq_some s _ _ h
  rw [nvAttempt] at hatt
  split at hatt
  case isFalse => exact absurd hatt (by simp)
  case isTrue hcond =>
    obtain ⟨hl2, hdash, hdig⟩ := hcond
    simp only [Option.some.injEq, Prod.mk.injEq] at hatt
    obtain ⟨hn, hv⟩ := hatt
    have hk_lt : k < s.length := by
      have := List.length_drop k s
      omega
    have hnlen : n.length = k := by
      rw [← hn, List.length_take]
      omega
    have hrw : s.drop k = '-' :: (s.drop k).getD 1 ' ' :: (s.drop k).drop 2 := by
      conv_lhs => rw [list_two_head hl2]
      rw [hdash]
    refine ⟨?_, ?_, ?_, ?_, ?_, ?_⟩
    · intro h0
      rw [h0] at hnlen
      simp at hnlen
      omega
    · intro c hc
      rw [← hn] at hc
      exact mem_take_of_le_takeWhile classA s k hk2 c hc
    · rw [hnlen, hn]
    · refine ⟨(s.drop k).getD 1 ' ', ((s.drop k).drop 2).takeWhile classB,
        ((s.drop k).drop 2).dropWhile classB, by rw [← hv], hdig, ?_, ?_, ?_⟩
      · rw [hnlen, ← hv]
        conv_lhs => rw [hrw]
        simp [List.takeWhile_append_dropWhile]
      · intro c hc
        rw [← hv] at hc
        rcases List.mem_cons.1 hc with rfl | hc
        · exact classB_of_digit_or_dot _ (Or.inl hdig)
        · exact List.mem_takeWhile_imp hc
      · exact head_dropWhile_not classB _
    · intro k2 hgt hle d t2 hdrop
      rw [hnlen] at hgt
      exact nvAttempt_none_of_no_digit s k2 d t2 hdrop (hrest k2 hgt hle)
    · intro s2 h2 k2 h1 hle d t2 hdrop
      rw [nvMatch, nvTry_eq_none_iff] at h2
      exact nvAttempt_none_of_no_digit s2 k2 d t2 hdrop (h2 k2 h1 hle)

/-- Counterexample to claim C4 as stated: on `a-1-2` the source's greedy
match yields name `a-1` and version `2`, while the spec's non-greedy
shortest-name reading (`nvMatchSpec`) would yield `a` and `1-2`; the full
parser propagates the greedy split. -/
theorem claim_C4_counterexample :
    nvMatch (str "a-1-2") = some (str "a-1", str "2")
    ∧ nvMatchSpec (str "a-1-2") = some (str "a", str "1-2")
    ∧ nvMatch (str "a-1-2") ≠ nvMatchSpec (str "a-1-2")
    ∧ (convert_url_to_download_info
        { scheme := str "http", netloc := str "h", path := str "/a-1-2.tar.gz",
          params := [], query := [], frag := [] } none).map
        (fun i => (i.name, i.version)) = some (str "a-1", str "2") := by
  exact ⟨by decide, by decide, by decide, by decide⟩

/-- Witness for claim C4: the greedy split of `a-1-2`. -/
theorem claim_C4_witness :
    (str "a-1-2").take (str "a-1").length = str "a-1"
    ∧ nvMatch (str "a-1-2") = some (str "a-1", str "2") := by
  have h : nvMatch (str "a-1-2") = some (str "a-1", str "2") := by decide
  exact ⟨(claim_C4 (str "a-1-2") (str "a-1") (str "2") h).2.2.1, h⟩

/-- Claim C3 (amended): for a URL whose path is
`<dir>/<name>-<version><ext>` with an accepted archive extension and the
expected project name (case-insensitively), the parser returns exactly
that name and version, and the canonical URL is the input reassembled with
an empty *fragment*; the query, however, is preserved (the code only
strips the fragment), which is the one correction to the claim. -/
theorem claim_C3 (u : PyURL) (dir name version ext pname : PyStr)
    (hext : ext ∈ [str ".tar.gz", str ".tar.bz2", str ".tar", str ".zip", str ".tgz"])
    (hpath : u.path = dir ++ '/' :: (name ++ '-' :: (version ++ ext)))
    (hname : name ≠ []) (hnA : ∀ c ∈ name, classA c = true)
    (d : Char) (t : PyStr) (hver : version = d :: t) (hd : d.isDigit = true)
    (hall : ∀ c ∈ version, c.isDigit = true ∨ c = '.')
    (hpn : toLower pname = toLower name) :
    convert_url_to_download_info u (some pname)
      = some { name := name, version := version,
               filename := name ++ '-' :: (version ++ ext),
               url := urlunparse { u with frag := [] },
               pythonVersion := none,
               md5Digest := md5Match u.frag } :=
  convert_exact u dir name version ext pname hext hpath hname hnA d t hver hd hall hpn

/-- Counterexample to claim C3 as stated: with query `x=1` present, the
canonical URL returned by the parser still carries that query (only the
fragment is stripped). -/
theorem claim_C3_counterexample :
    convert_url_to_download_info
        { scheme := str "http", netloc := str "example.com",
          path := str "/foo-1.0.tar.gz", params := [], query := str "x=1",
          frag := str "md5=zz" }
        (some (str "foo"))
      = some { name := str "foo", version := str "1.0",
               filename := str "foo-1.0.tar.gz",
               url := str "http://example.com/foo-1.0.tar.gz?x=1",
               pythonVersion := none, md5Digest := none }
    ∧ '?' ∈ str "http://example.com/foo-1.0.tar.gz?x=1" := by
  exact ⟨by decide, by decide⟩

/-- Witness for claim C3: `http://example.com/p/Foo-2.0.zip#md5=ae12` with
expected name `foo` parses to name `Foo`, version `2.0`, digest `ae12`,
and a fragment-free canonical URL. -/
theorem claim_C3_witness :
    convert_url_to_download_info
        { scheme := str "http", netloc := str "example.com", path := str "/p/Foo-2.0.zip",
          params := [], query := [], frag := str "md5=ae12" }
        (some (str "foo"))
      = some { name := str "Foo", version := str "2.0",
               filename := str "Foo-2.0.zip",
               url := str "http://example.com/p/Foo-2.0.zip",
               pythonVersion := none, md5Digest := some (str "ae12") } := by
  have h := claim_C3
    { scheme := str "http", netloc := str "example.com", path := str "/p/Foo-2.0.zip",
      params := [], query := [], frag := str "md5=ae12" }
    (str "/p") (str "Foo") (str "2.0") (str ".zip") (str "foo")
    (by decide) (by decide) (by decide) (by decide)
    '2' (str ".0") (by decide) (by decide) (by decide) (by decide)
  exact h.trans (by decide)
